import Mathlib

/-!
Shallow embedding of the move-generation core of the chess-engine repository
(crates/chess_engine/src/board.rs and engine.rs).

Rust u64 bitboards are modelled as Nat values below 2^64; wrapping shifts and
wrapping arithmetic are made explicit with `% 2^64`.  Arrays are modelled as
lists indexed with `List.getD`, and array-element assignment as `List.set`.
-/

namespace ChessEngine

/-- Modulus of 64-bit (u64) arithmetic. -/
def U64 : Nat := 2 ^ 64

/-- Truncation to 64 bits, as performed by every Rust u64 operation that
can overflow the top (left shifts). -/
def wrap (n : Nat) : Nat := n % U64

/-- Bitwise complement on 64 bits: Rust `!x` on u64. -/
def bnot (x : Nat) : Nat := x ^^^ (U64 - 1)

/-- Bitboard: a u64, bit i = square i (square = rank*8 + file, a1 = 0). -/
abbrev Bitboard := Nat

/-- Rust `self & self.wrapping_neg()` (board.rs, get_ls1b). -/
def get_ls1b (b : Bitboard) : Bitboard := b &&& ((U64 - b) % U64)

/-- Rust `self & (self - 1)` (board.rs, remove_ls1b); u64 subtraction wraps,
so `b - 1` is modelled as `(b + (2^64 - 1)) % 2^64`. -/
def remove_ls1b (b : Bitboard) : Bitboard := b &&& ((b + (U64 - 1)) % U64)

/-- Rust u64::trailing_zeros, fuelled structural recursion (64 fuel is enough
for any u64; trailing_zeros 0 = 64 as in Rust). -/
def tzAux : Nat → Nat → Nat
  | 0, _ => 64
  | fuel + 1, n => if n = 0 then 64 else if n % 2 = 1 then 0 else 1 + tzAux fuel (n / 2)

/-- Trailing-zero count of a u64. -/
def trailing_zeros (n : Nat) : Nat := tzAux 64 n

/-- BitboardIterator (board.rs): repeatedly yield get_ls1b and strip it with
remove_ls1b until the board is 0.  A u64 has at most 64 set bits, so 64 fuel
always suffices. -/
def bbIterAux : Nat → Bitboard → List Bitboard
  | 0, _ => []
  | fuel + 1, b => if b = 0 then [] else get_ls1b b :: bbIterAux fuel (remove_ls1b b)

/-- List of single-bit bitboards produced by iterating a bitboard. -/
def bbToList (b : Bitboard) : List Bitboard := bbIterAux 64 b

/-- Rank masks (board.rs constants). -/
def RANK_1 : Bitboard := 0x00000000000000FF
def RANK_2 : Bitboard := 0x000000000000FF00
def RANK_3 : Bitboard := 0x0000000000FF0000
def RANK_4 : Bitboard := 0x00000000FF000000
def RANK_5 : Bitboard := 0x000000FF00000000
def RANK_6 : Bitboard := 0x0000FF0000000000
def RANK_7 : Bitboard := 0x00FF000000000000
def RANK_8 : Bitboard := 0xFF00000000000000

/-- File masks (board.rs constants). -/
def FILE_A : Bitboard := 0x0101010101010101
def FILE_B : Bitboard := 0x0202020202020202
def FILE_C : Bitboard := 0x0404040404040404
def FILE_D : Bitboard := 0x0808080808080808
def FILE_E : Bitboard := 0x1010101010101010
def FILE_F : Bitboard := 0x2020202020202020
def FILE_G : Bitboard := 0x4040404040404040
def FILE_H : Bitboard := 0x8080808080808080

/-- Shift directions (board.rs). -/
inductive Direction where
  | N | E | S | W | NE | SE | SW | NW
  | NNE | NEE | SEE | SSE | SSW | SWW | NWW | NNW
deriving DecidableEq, Repr

/-- Knight attack directions, in the iteration order of the source. -/
def KNIGHT_ATTACKS_DIRECTIONS : List Direction :=
  [.NNE, .NEE, .SEE, .SSE, .SSW, .SWW, .NWW, .NNW]

/-- Directional shift (board.rs bb_shift), with the source's masks verbatim. -/
def bb_shift (bitboard : Bitboard) (direction : Direction) : Bitboard :=
  match direction with
  | .N => wrap (bitboard <<< 8)
  | .E => wrap (bitboard <<< 1) &&& bnot FILE_A
  | .S => bitboard >>> 8
  | .W => (bitboard >>> 1) &&& bnot FILE_H
  | .NE => wrap (bitboard <<< 9) &&& bnot FILE_A
  | .SE => (bitboard >>> 7) &&& bnot FILE_A
  | .SW => (bitboard >>> 9) &&& bnot FILE_H
  | .NW => wrap (bitboard <<< 7) &&& bnot FILE_H
  | .NNE => wrap (bitboard <<< 17) &&& bnot FILE_A
  | .NEE => wrap (bitboard <<< 10) &&& bnot FILE_A
  | .SEE => (bitboard >>> 6) &&& bnot FILE_A
  | .SSE => (bitboard >>> 15) &&& bnot FILE_A
  | .SSW => (bitboard >>> 17) &&& bnot FILE_H
  | .SWW => (bitboard >>> 10) &&& bnot FILE_H
  | .NWW => wrap (bitboard <<< 6) &&& bnot FILE_H
  | .NNW => wrap (bitboard <<< 15) &&& bnot FILE_H

/-- Piece types (engine.rs), with the sentinel Count carried as in the source. -/
inductive PieceType where
  | Pawn | Knight | Bishop | Rook | Queen | King | Count
deriving DecidableEq, Repr

/-- Discriminant of a PieceType (engine.rs val). -/
def PieceType.val : PieceType → Nat
  | .Pawn => 0
  | .Knight => 1
  | .Bishop => 2
  | .Rook => 3
  | .Queen => 4
  | .King => 5
  | .Count => 6

/-- Sides (engine.rs), with the sentinel Count as in the source. -/
inductive Side where
  | White | Black | Count
deriving DecidableEq, Repr

/-- Discriminant of a Side (engine.rs val). -/
def Side.val : Side → Nat
  | .White => 0
  | .Black => 1
  | .Count => 2

/-- Side flip (engine.rs). -/
def Side.flip : Side → Side
  | .White => .Black
  | .Black => .White
  | .Count => .Count

/-- Move record (engine.rs).  The Rust fields `from` and `to` are named
fromSq and toSq since `from` is reserved in Lean. -/
structure Move where
  fromSq : Nat
  toSq : Nat
  promote : Option PieceType
deriving DecidableEq, Repr

/-- Single pawn push targets (board.rs single_pawn_push). -/
def single_pawn_push (pawns : Bitboard) (empty : Bitboard) (side : Side) : Bitboard :=
  match side with
  | .White => bb_shift pawns .N &&& empty
  | .Black => bb_shift pawns .S &&& empty
  | .Count => 0

/-- Double pawn push targets (board.rs double_pawn_push). -/
def double_pawn_push (pawns : Bitboard) (empty : Bitboard) (side : Side) : Bitboard :=
  match side with
  | .White => bb_shift (single_pawn_push (pawns &&& RANK_2) empty side) .N &&& empty
  | .Black => bb_shift (single_pawn_push (pawns &&& RANK_7) empty side) .S &&& empty
  | .Count => 0

/-- Pawn East capture targets (board.rs pawn_east_attacks). -/
def pawn_east_attacks (pawns : Bitboard) (enemy_pieces : Bitboard) (side : Side) : Bitboard :=
  match side with
  | .White => bb_shift pawns .NE &&& enemy_pieces
  | .Black => bb_shift pawns .SE &&& enemy_pieces
  | .Count => 0

/-- Pawn West capture targets (board.rs pawn_west_attacks). -/
def pawn_west_attacks (pawns : Bitboard) (enemy_pieces : Bitboard) (side : Side) : Bitboard :=
  match side with
  | .White => bb_shift pawns .NW &&& enemy_pieces
  | .Black => bb_shift pawns .SW &&& enemy_pieces
  | .Count => 0

/-- Board state (board.rs): attack table plus per-side and per-piece boards. -/
structure Board where
  attacks_by_piece : List (List Bitboard)
  bitboard_by_side : List Bitboard
  bitboard_by_piece : List Bitboard

/-- Read of bitboard_by_side[i]. -/
def sideBB (b : Board) (i : Nat) : Bitboard := b.bitboard_by_side.getD i 0

/-- Read of bitboard_by_piece[i]. -/
def pieceBB (b : Board) (i : Nat) : Bitboard := b.bitboard_by_piece.getD i 0

/-- Read of attacks_by_piece[p][sq]. -/
def attacksAt (b : Board) (p : Nat) (sq : Nat) : Bitboard :=
  (b.attacks_by_piece.getD p []).getD sq 0

/-- Knight attack bitboard for one square, the OR over the eight knight
directions computed by the construction loop in Board::new. -/
def knightAttacksFrom (square : Nat) : Bitboard :=
  KNIGHT_ATTACKS_DIRECTIONS.foldl (fun acc d => acc ||| bb_shift (wrap (1 <<< square)) d) 0

/-- Board construction (board.rs Board::new): zero occupancy, knight slice of
the attack table populated, every other slice left zero. -/
def Board.new : Board :=
  { attacks_by_piece :=
      (List.range 6).map fun p =>
        if p = PieceType.Knight.val then (List.range 64).map knightAttacksFrom
        else List.replicate 64 0,
    bitboard_by_side := [0, 0],
    bitboard_by_piece := [0, 0, 0, 0, 0, 0] }

/-- Promotion rank selected in generate_pawn_moves (Rust `!0` for the
sentinel side). -/
def promotionRank (side : Side) : Bitboard :=
  match side with
  | .White => RANK_8
  | .Black => RANK_1
  | .Count => bnot 0

/-- Source square of a single push, recovered from the destination bitboard
(the match on the side inside the first for_each of generate_pawn_moves). -/
def singlePushSource (side : Side) (to_square : Bitboard) : Bitboard :=
  match side with
  | .White => to_square >>> 8
  | .Black => wrap (to_square <<< 8)
  | .Count => 0

/-- Source square of a double push, recovered from the destination bitboard
(the match on the side inside the second for_each of generate_pawn_moves). -/
def doublePushSource (side : Side) (to_square : Bitboard) : Bitboard :=
  match side with
  | .White => to_square >>> 16
  | .Black => wrap (to_square <<< 16)
  | .Count => 0

/-- Single-push section of generate_pawn_moves. -/
def pawnSinglePushMoves (our_pawns empty prom : Bitboard) (side : Side) : List Move :=
  (bbToList (single_pawn_push our_pawns empty side)).map fun to_square =>
    { fromSq := trailing_zeros (singlePushSource side to_square),
      toSq := trailing_zeros to_square,
      promote := if to_square &&& prom ≠ 0 then some PieceType.Queen else none }

/-- Double-push section of generate_pawn_moves. -/
def pawnDoublePushMoves (our_pawns empty : Bitboard) (side : Side) : List Move :=
  (bbToList (double_pawn_push our_pawns empty side)).map fun to_square =>
    { fromSq := trailing_zeros (doublePushSource side to_square),
      toSq := trailing_zeros to_square,
      promote := none }

/-- East-capture section of generate_pawn_moves: forward shift to find
targets, mirror shift to recover the source. -/
def pawnEastCapMoves (our_pawns opp prom : Bitboard) (side : Side) : List Move :=
  (bbToList (pawn_east_attacks our_pawns opp side)).flatMap fun target_piece =>
    (bbToList (pawn_west_attacks target_piece our_pawns side.flip)).map fun source_piece =>
      { fromSq := trailing_zeros source_piece,
        toSq := trailing_zeros target_piece,
        promote := if target_piece &&& prom ≠ 0 then some PieceType.Queen else none }

/-- West-capture section of generate_pawn_moves. -/
def pawnWestCapMoves (our_pawns opp prom : Bitboard) (side : Side) : List Move :=
  (bbToList (pawn_west_attacks our_pawns opp side)).flatMap fun target_piece =>
    (bbToList (pawn_east_attacks target_piece our_pawns side.flip)).map fun source_piece =>
      { fromSq := trailing_zeros source_piece,
        toSq := trailing_zeros target_piece,
        promote := if target_piece &&& prom ≠ 0 then some PieceType.Queen else none }

/-- The mover's pawns, as computed in generate_pawn_moves. -/
def ourPawns (b : Board) (side : Side) : Bitboard :=
  pieceBB b PieceType.Pawn.val &&& sideBB b side.val

/-- The opponent occupancy, as computed in generate_pawn_moves. -/
def oppBB (b : Board) (side : Side) : Bitboard := sideBB b side.flip.val

/-- The empty-square set, as computed in generate_pawn_moves. -/
def emptyBB (b : Board) (side : Side) : Bitboard :=
  bnot (sideBB b side.val) &&& bnot (oppBB b side)

/-- Pawn move generation (board.rs generate_pawn_moves): single pushes, then
double pushes, then east captures, then west captures. -/
def generate_pawn_moves (b : Board) (side : Side) : List Move :=
  pawnSinglePushMoves (ourPawns b side) (emptyBB b side) (promotionRank side) side
    ++ pawnDoublePushMoves (ourPawns b side) (emptyBB b side) side
    ++ pawnEastCapMoves (ourPawns b side) (oppBB b side) (promotionRank side) side
    ++ pawnWestCapMoves (ourPawns b side) (oppBB b side) (promotionRank side) side

/-- Knight move generation (board.rs generate_knight_moves): attack-table
lookup masked to empty squares only. -/
def generate_knight_moves (b : Board) (side : Side) : List Move :=
  let empty_bitboard := bnot (sideBB b side.val) &&& bnot (sideBB b side.flip.val)
  let our_knights := pieceBB b PieceType.Knight.val &&& sideBB b side.val
  (bbToList our_knights).flatMap fun knight_source =>
    let source_index := trailing_zeros knight_source
    let knight_moves := attacksAt b PieceType.Knight.val source_index &&& empty_bitboard
    (bbToList knight_moves).map fun knight_move =>
      { fromSq := source_index, toSq := trailing_zeros knight_move, promote := none }

/-- Engine state (engine.rs): per-square piece index plus the Board. -/
structure Engine where
  squares_by_type : List (Option PieceType)
  board : Board

/-- Default engine (engine.rs Default for Engine). -/
def Engine.default : Engine :=
  { squares_by_type := List.replicate 64 none, board := Board.new }

/-- Engine::set_square (engine.rs): update the square index, then either set
the side bit, clear the opposing side bit and set the piece-type bit, or (on
clear) clear the side bit and every piece-type bit. -/
def set_square (e : Engine) (square_idx : Nat) (side : Side) (piece_type : Option PieceType) :
    Engine :=
  let squares := e.squares_by_type.set square_idx piece_type
  let bit := wrap (1 <<< square_idx)
  match piece_type with
  | some pt =>
      let bbs0 := e.board.bitboard_by_side
      let bbs1 := bbs0.set side.val (bbs0.getD side.val 0 ||| bit)
      let bbs2 := bbs1.set side.flip.val (bbs1.getD side.flip.val 0 &&& bnot bit)
      let bbp := e.board.bitboard_by_piece.set pt.val
        (e.board.bitboard_by_piece.getD pt.val 0 ||| bit)
      { squares_by_type := squares,
        board := { e.board with bitboard_by_side := bbs2, bitboard_by_piece := bbp } }
  | none =>
      let bbs := e.board.bitboard_by_side.set side.val
        (e.board.bitboard_by_side.getD side.val 0 &&& bnot bit)
      let bbp := (List.range PieceType.Count.val).foldl
        (fun acc i => acc.set i (acc.getD i 0 &&& bnot bit)) e.board.bitboard_by_piece
      { squares_by_type := squares,
        board := { e.board with bitboard_by_side := bbs, bitboard_by_piece := bbp } }

/-- Engine::set_initial_position (engine.rs), with the source's call order. -/
def set_initial_position (e : Engine) : Engine :=
  let e := (List.range' 1 8).foldl
    (fun e file =>
      set_square (set_square e (7 + file) .White (some .Pawn)) (47 + file) .Black (some .Pawn)) e
  let e := set_square e 1 .White (some .Knight)
  let e := set_square e 6 .White (some .Knight)
  let e := set_square e 57 .Black (some .Knight)
  let e := set_square e 62 .Black (some .Knight)
  let e := set_square e 2 .White (some .Bishop)
  let e := set_square e 5 .White (some .Bishop)
  let e := set_square e 58 .Black (some .Bishop)
  let e := set_square e 61 .Black (some .Bishop)
  let e := set_square e 0 .White (some .Rook)
  let e := set_square e 7 .White (some .Rook)
  let e := set_square e 56 .Black (some .Rook)
  let e := set_square e 63 .Black (some .Rook)
  let e := set_square e 3 .White (some .Queen)
  let e := set_square e 59 .Black (some .Queen)
  let e := set_square e 4 .White (some .King)
  set_square e 60 .Black (some .King)

/-- Engine::make_move (engine.rs): on an empty source square the function
logs and returns with the state untouched; otherwise it clears the source
square and sets the destination for the ascertained side. -/
def make_move (e : Engine) (m : Move) : Engine :=
  let side := if sideBB e.board Side.White.val &&& wrap (1 <<< m.fromSq) ≠ 0
    then Side.White else Side.Black
  match e.squares_by_type.getD m.fromSq none with
  | none => e
  | some fpt =>
      let to_piece_type := m.promote.getD fpt
      set_square (set_square e m.fromSq side none) m.toSq side (some to_piece_type)

/-!  Basic facts about 64-bit truncation, complement and the bit iterator. -/

theorem U64_pos : 0 < U64 := by decide

theorem wrap_lt (x : Nat) : wrap x < U64 := Nat.mod_lt _ U64_pos

theorem testBit_wrap (x i : Nat) : (wrap x).testBit i = (decide (i < 64) && x.testBit i) := by
  rw [wrap, U64, Nat.testBit_mod_two_pow]

theorem testBit_ge_64 {x i : Nat} (hx : x < U64) (h : 64 ≤ i) : x.testBit i = false :=
  Nat.testBit_lt_two_pow
    (lt_of_lt_of_le hx (Nat.pow_le_pow_right (by norm_num) h))

theorem testBit_bnot {x : Nat} (hx : x < U64) (i : Nat) :
    (bnot x).testBit i = (decide (i < 64) && !x.testBit i) := by
  have hmask : (U64 - 1).testBit i = decide (i < 64) := by
    have : U64 - 1 = 2 ^ 64 - 1 := rfl
    rw [this, Nat.testBit_two_pow_sub_one]
  rcases Nat.lt_or_ge i 64 with h | h
  · simp [bnot, Nat.testBit_xor, hmask, h]
  · simp [bnot, Nat.testBit_xor, hmask, Nat.not_lt.mpr h, testBit_ge_64 hx h]

theorem bnot_lt {x : Nat} (hx : x < U64) : bnot x < U64 :=
  Nat.xor_lt_two_pow hx (by decide)

theorem two_pow_and_ne_zero_iff (t x : Nat) : (2 ^ t &&& x ≠ 0) ↔ x.testBit t = true := by
  constructor
  · intro h
    obtain ⟨i, hi⟩ := Nat.ne_zero_implies_bit_true h
    rw [Nat.testBit_and, Bool.and_eq_true, Nat.testBit_two_pow, decide_eq_true_eq] at hi
    obtain ⟨ht, hx⟩ := hi
    rwa [ht]
  · intro h hzero
    have hbit : (2 ^ t &&& x).testBit t = true := by
      rw [Nat.testBit_and, Nat.testBit_two_pow_self, h, Bool.and_self]
    rw [hzero, Nat.zero_testBit] at hbit
    exact Bool.false_ne_true hbit

/-!  Trailing-zero count: specification lemmas for the fuelled definition. -/

theorem tzAux_zero_arg : ∀ f, tzAux f 0 = 64
  | 0 => rfl
  | _ + 1 => by simp [tzAux]

theorem tzAux_spec : ∀ f b, b < 2 ^ f → b ≠ 0 →
    tzAux f b < f ∧ b.testBit (tzAux f b) = true := by
  intro f
  induction f with
  | zero => intro b hb h0; omega
  | succ f ih =>
    intro b hb h0
    by_cases hodd : b % 2 = 1
    · simp only [tzAux, h0, if_false, hodd, if_true]
      exact ⟨Nat.succ_pos f, by simp [hodd]⟩
    · have hb2 : b / 2 < 2 ^ f := by
        have : 2 ^ (f + 1) = 2 * 2 ^ f := by ring
        omega
      have h02 : b / 2 ≠ 0 := by omega
      obtain ⟨h1, h2⟩ := ih (b / 2) hb2 h02
      simp only [tzAux, h0, if_false, hodd, if_true]
      refine ⟨by omega, ?_⟩
      rw [Nat.add_comm 1 (tzAux f (b / 2)), Nat.testBit_add_one]
      exact h2

theorem tzAux_lt_bits : ∀ f b, b < 2 ^ f → ∀ i, i < tzAux f b → b.testBit i = false := by
  intro f
  induction f with
  | zero => intro b hb i _; have : b = 0 := by omega
            simp [this]
  | succ f ih =>
    intro b hb i hi
    by_cases h0 : b = 0
    · simp [h0]
    by_cases hodd : b % 2 = 1
    · simp only [tzAux, h0, if_false, hodd, if_true] at hi
      omega
    · simp only [tzAux, h0, if_false, hodd, if_true] at hi
      have hb2 : b / 2 < 2 ^ f := by
        have : 2 ^ (f + 1) = 2 * 2 ^ f := by ring
        omega
      cases i with
      | zero => simp [Nat.testBit_zero, hodd]
      | succ i =>
        rw [Nat.testBit_add_one]
        exact ih (b / 2) hb2 i (by omega)

theorem tzAux_ge_of_bits : ∀ f b k, b < 2 ^ f → k ≤ 64 →
    (∀ i, i < k → b.testBit i = false) → k ≤ tzAux f b := by
  intro f
  induction f with
  | zero => intro b k hb hk hbits
            have : b = 0 := by omega
            rw [this, tzAux_zero_arg]; exact hk
  | succ f ih =>
    intro b k hb hk hbits
    by_cases h0 : b = 0
    · rw [h0, tzAux_zero_arg]; exact hk
    by_cases hodd : b % 2 = 1
    · simp only [tzAux, h0, if_false, hodd, if_true]
      by_contra hkpos
      have hk1 : 0 < k := by omega
      have := hbits 0 hk1
      simp [Nat.testBit_zero, hodd] at this
    · simp only [tzAux, h0, if_false, hodd, if_true]
      cases k with
      | zero => omega
      | succ k =>
        have hb2 : b / 2 < 2 ^ f := by
          have : 2 ^ (f + 1) = 2 * 2 ^ f := by ring
          omega
        have hbits2 : ∀ i, i < k → (b / 2).testBit i = false := by
          intro i hik
          rw [← Nat.testBit_add_one]
          exact hbits (i + 1) (by omega)
        have := ih (b / 2) k hb2 (by omega) hbits2
        omega

theorem tzAux_pred : ∀ f b, b < 2 ^ f → b ≠ 0 → ∀ i,
    (b - 1).testBit i =
      (if i < tzAux f b then true else if i = tzAux f b then false else b.testBit i) := by
  intro f
  induction f with
  | zero => intro b hb h0; omega
  | succ f ih =>
    intro b hb h0 i
    by_cases hodd : b % 2 = 1
    · simp only [tzAux, h0, if_false, hodd, if_true]
      cases i with
      | zero =>
        simp only [Nat.lt_irrefl, if_false, if_pos rfl]
        simp [Nat.testBit_zero]
        omega
      | succ i =>
        have : ¬ (i + 1 < 0) := by omega
        simp only [Nat.not_lt_zero, if_false, Nat.succ_ne_zero, if_neg (by omega : ¬ i + 1 = 0)]
        rw [Nat.testBit_add_one, Nat.testBit_add_one]
        have : (b - 1) / 2 = b / 2 := by omega
        rw [this]
    · have hb2 : b / 2 < 2 ^ f := by
        have : 2 ^ (f + 1) = 2 * 2 ^ f := by ring
        omega
      have h02 : b / 2 ≠ 0 := by omega
      simp only [tzAux, h0, if_false, hodd, if_true]
      cases i with
      | zero =>
        simp only [if_pos (by omega : 0 < 1 + tzAux f (b / 2))]
        simp [Nat.testBit_zero]
        omega
      | succ i =>
        rw [Nat.testBit_add_one]
        have hdiv : (b - 1) / 2 = b / 2 - 1 := by omega
        rw [hdiv, ih (b / 2) hb2 h02 i]
        have hiff1 : i + 1 < 1 + tzAux f (b / 2) ↔ i < tzAux f (b / 2) := by omega
        have hiff2 : i + 1 = 1 + tzAux f (b / 2) ↔ i = tzAux f (b / 2) := by omega
        by_cases hc1 : i < tzAux f (b / 2)
        · simp [hc1, hiff1.mpr hc1]
        · by_cases hc2 : i = tzAux f (b / 2)
          · subst hc2
            have h1 : ¬ tzAux f (b / 2) < tzAux f (b / 2) := lt_irrefl _
            have h2 : ¬ (tzAux f (b / 2) + 1 < 1 + tzAux f (b / 2)) := by omega
            have h3 : tzAux f (b / 2) + 1 = 1 + tzAux f (b / 2) := by omega
            simp [h1, h2, h3]
          · simp only [if_neg hc1, if_neg hc2,
              if_neg (by omega : ¬ i + 1 < 1 + tzAux f (b / 2)),
              if_neg (by omega : ¬ i + 1 = 1 + tzAux f (b / 2))]
            rw [Nat.testBit_add_one]

theorem tzAux_two_pow : ∀ f i, i < f → tzAux f (2 ^ i) = i := by
  intro f
  induction f with
  | zero => omega
  | succ f ih =>
    intro i hi
    cases i with
    | zero => simp [tzAux]
    | succ i =>
      have hne : 2 ^ (i + 1) ≠ 0 := Nat.pos_iff_ne_zero.mp (Nat.two_pow_pos _)
      have heven : ¬ 2 ^ (i + 1) % 2 = 1 := by
        have : 2 ^ (i + 1) = 2 * 2 ^ i := by ring
        omega
      simp only [tzAux, if_neg hne, heven, if_false, if_true]
      have hdiv : 2 ^ (i + 1) / 2 = 2 ^ i := by
        have : 2 ^ (i + 1) = 2 * 2 ^ i := by ring
        omega
      rw [hdiv, ih i (by omega)]
      omega

theorem trailing_zeros_two_pow {i : Nat} (h : i < 64) : trailing_zeros (2 ^ i) = i :=
  tzAux_two_pow 64 i h

theorem trailing_zeros_spec {b : Nat} (hb : b < U64) (h0 : b ≠ 0) :
    trailing_zeros b < 64 ∧ b.testBit (trailing_zeros b) = true :=
  tzAux_spec 64 b hb h0

theorem trailing_zeros_lt_bits {b : Nat} (hb : b < U64) {i : Nat} (hi : i < trailing_zeros b) :
    b.testBit i = false :=
  tzAux_lt_bits 64 b hb i hi

theorem trailing_zeros_pred {b : Nat} (hb : b < U64) (h0 : b ≠ 0) (i : Nat) :
    (b - 1).testBit i =
      (if i < trailing_zeros b then true
       else if i = trailing_zeros b then false else b.testBit i) :=
  tzAux_pred 64 b hb h0 i

theorem trailing_zeros_ge_of_bits {b k : Nat} (hb : b < U64) (hk : k ≤ 64)
    (h : ∀ i, i < k → b.testBit i = false) : k ≤ trailing_zeros b :=
  tzAux_ge_of_bits 64 b k hb hk h

/-!  Least-significant-bit extraction and removal. -/

theorem get_ls1b_eq_two_pow {b : Nat} (hb : b < U64) (h0 : b ≠ 0) :
    get_ls1b b = 2 ^ trailing_zeros b := by
  obtain ⟨htlt, htbit⟩ := trailing_zeros_spec hb h0
  have hb1 : b - 1 < 2 ^ 64 := by
    have : b < 2 ^ 64 := hb
    omega
  have hwneg : (U64 - b) % U64 = 2 ^ 64 - ((b - 1) + 1) := by
    have hU : U64 = 2 ^ 64 := rfl
    have h1 : 1 ≤ b := Nat.pos_iff_ne_zero.mpr h0
    have h2 : U64 - b < U64 := by omega
    rw [Nat.mod_eq_of_lt h2, hU]
    omega
  apply Nat.eq_of_testBit_eq
  intro i
  rw [get_ls1b, hwneg, Nat.testBit_and, Nat.testBit_two_pow_sub_succ hb1,
    Nat.testBit_two_pow]
  have hpred := trailing_zeros_pred hb h0 i
  rcases Nat.lt_trichotomy i (trailing_zeros b) with hlt | heq | hgt
  · have hne : trailing_zeros b ≠ i := by omega
    rw [trailing_zeros_lt_bits hb hlt]
    simp [hne]
  · subst heq
    rw [htbit, hpred, if_neg (lt_irrefl _), if_pos rfl]
    simp [htlt]
  · have hne : trailing_zeros b ≠ i := by omega
    rw [hpred, if_neg (by omega), if_neg (by omega)]
    cases hbi : b.testBit i <;> simp [hbi, hne]

theorem remove_ls1b_eq_and_pred {b : Nat} (hb : b < U64) (h0 : b ≠ 0) :
    remove_ls1b b = b &&& (b - 1) := by
  have h1 : 1 ≤ b := Nat.pos_iff_ne_zero.mpr h0
  have heq : (b + (U64 - 1)) % U64 = b - 1 := by
    have hU : 0 < U64 := U64_pos
    have hsplit : b + (U64 - 1) = (b - 1) + 1 * U64 := by omega
    rw [hsplit, Nat.add_mul_mod_self_right, Nat.mod_eq_of_lt (by omega)]
  rw [remove_ls1b, heq]

theorem testBit_remove_ls1b {b : Nat} (hb : b < U64) (h0 : b ≠ 0) (i : Nat) :
    (remove_ls1b b).testBit i = (b.testBit i && !decide (i = trailing_zeros b)) := by
  rw [remove_ls1b_eq_and_pred hb h0, Nat.testBit_and, trailing_zeros_pred hb h0 i]
  rcases Nat.lt_trichotomy i (trailing_zeros b) with hlt | heq | hgt
  · rw [trailing_zeros_lt_bits hb hlt]
    simp
  · subst heq
    rw [if_neg (lt_irrefl _), if_pos rfl]
    simp
  · have hne : i ≠ trailing_zeros b := by omega
    rw [if_neg (by omega), if_neg (by omega)]
    simp [hne]

theorem remove_ls1b_le (b : Nat) : remove_ls1b b ≤ b := Nat.and_le_left

theorem get_ls1b_zero : get_ls1b 0 = 0 := by decide

theorem remove_ls1b_zero : remove_ls1b 0 = 0 := by decide

/-!  Iteration: the bit iterator yields exactly the set bits, as powers of
two. -/

theorem mem_bbIterAux : ∀ fuel b, b < U64 → 64 ≤ fuel + trailing_zeros b →
    ∀ x, (x ∈ bbIterAux fuel b ↔ ∃ i, i < 64 ∧ x = 2 ^ i ∧ b.testBit i = true) := by
  intro fuel
  induction fuel with
  | zero =>
    intro b hb hfuel x
    have hb0 : b = 0 := by
      by_contra h0
      have := (trailing_zeros_spec hb h0).1
      omega
    subst hb0
    simp [bbIterAux]
  | succ fuel ih =>
    intro b hb hfuel x
    by_cases h0 : b = 0
    · subst h0
      simp [bbIterAux]
    obtain ⟨htlt, htbit⟩ := trailing_zeros_spec hb h0
    have hrem_lt : remove_ls1b b < U64 := lt_of_le_of_lt (remove_ls1b_le b) hb
    have hrem_tz : trailing_zeros b + 1 ≤ trailing_zeros (remove_ls1b b) := by
      apply trailing_zeros_ge_of_bits hrem_lt (by omega)
      intro i hi
      rw [testBit_remove_ls1b hb h0 i]
      rcases Nat.lt_or_ge i (trailing_zeros b) with hlt | hge
      · rw [trailing_zeros_lt_bits hb hlt]
        simp
      · have : i = trailing_zeros b := by omega
        simp [this]
    simp only [bbIterAux, h0, if_false, List.mem_cons]
    rw [ih (remove_ls1b b) hrem_lt (by omega) x]
    constructor
    · rintro (rfl | ⟨i, hi64, rfl, hbit⟩)
      · exact ⟨trailing_zeros b, htlt, get_ls1b_eq_two_pow hb h0, htbit⟩
      · rw [testBit_remove_ls1b hb h0 i, Bool.and_eq_true] at hbit
        exact ⟨i, hi64, rfl, hbit.1⟩
    · rintro ⟨i, hi64, rfl, hbit⟩
      by_cases hit : i = trailing_zeros b
      · subst hit
        exact Or.inl (get_ls1b_eq_two_pow hb h0).symm
      · refine Or.inr ⟨i, hi64, rfl, ?_⟩
        rw [testBit_remove_ls1b hb h0 i, hbit]
        simp [hit]

theorem mem_bbToList {b x : Nat} (hb : b < U64) :
    x ∈ bbToList b ↔ ∃ i, i < 64 ∧ x = 2 ^ i ∧ b.testBit i = true :=
  mem_bbIterAux 64 b hb (by omega) x

/-!  Bit characterizations of the rank and file mask constants. -/

theorem testBit_RANK_1 (i : Nat) : RANK_1.testBit i = decide (i < 8) := by
  rcases Nat.lt_or_ge i 64 with h | h
  · exact (by decide : ∀ j, j < 64 → RANK_1.testBit j = decide (j < 8)) i h
  · rw [testBit_ge_64 (by decide) h]
    symm
    simp
    omega

theorem testBit_RANK_2 (i : Nat) : RANK_2.testBit i = decide (8 ≤ i ∧ i < 16) := by
  rcases Nat.lt_or_ge i 64 with h | h
  · exact (by decide : ∀ j, j < 64 → RANK_2.testBit j = decide (8 ≤ j ∧ j < 16)) i h
  · rw [testBit_ge_64 (by decide) h]
    symm
    simp
    omega

theorem testBit_RANK_7 (i : Nat) : RANK_7.testBit i = decide (48 ≤ i ∧ i < 56) := by
  rcases Nat.lt_or_ge i 64 with h | h
  · exact (by decide : ∀ j, j < 64 → RANK_7.testBit j = decide (48 ≤ j ∧ j < 56)) i h
  · rw [testBit_ge_64 (by decide) h]
    symm
    simp
    omega

theorem testBit_RANK_8 (i : Nat) : RANK_8.testBit i = decide (56 ≤ i ∧ i < 64) := by
  rcases Nat.lt_or_ge i 64 with h | h
  · exact (by decide : ∀ j, j < 64 → RANK_8.testBit j = decide (56 ≤ j ∧ j < 64)) i h
  · rw [testBit_ge_64 (by decide) h]
    symm
    simp
    omega

theorem testBit_FILE_A (i : Nat) : FILE_A.testBit i = decide (i < 64 ∧ i % 8 = 0) := by
  rcases Nat.lt_or_ge i 64 with h | h
  · exact (by decide : ∀ j, j < 64 → FILE_A.testBit j = decide (j < 64 ∧ j % 8 = 0)) i h
  · rw [testBit_ge_64 (by decide) h]
    symm
    simp
    omega

theorem testBit_FILE_H (i : Nat) : FILE_H.testBit i = decide (i < 64 ∧ i % 8 = 7) := by
  rcases Nat.lt_or_ge i 64 with h | h
  · exact (by decide : ∀ j, j < 64 → FILE_H.testBit j = decide (j < 64 ∧ j % 8 = 7)) i h
  · rw [testBit_ge_64 (by decide) h]
    symm
    simp
    omega

/-!  Shift computations on single-bit boards. -/

theorem two_pow_shiftRight (t k : Nat) (h : k ≤ t) : 2 ^ t >>> k = 2 ^ (t - k) := by
  rw [Nat.shiftRight_eq_div_pow]
  exact Nat.pow_div h (by norm_num)

theorem two_pow_shiftLeft (t k : Nat) : 2 ^ t <<< k = 2 ^ (t + k) := by
  rw [Nat.shiftLeft_eq, ← pow_add]

theorem wrap_two_pow {t : Nat} (h : t < 64) : wrap (2 ^ t) = 2 ^ t := by
  rw [wrap]
  exact Nat.mod_eq_of_lt (Nat.pow_lt_pow_right (by norm_num) h)

theorem testBit_two_pow_shiftRight_big {t k s : Nat} (h : t < k) : (2 ^ t >>> k).testBit s = false := by
  rw [Nat.testBit_shiftRight, Nat.testBit_two_pow_of_ne (by omega)]

/-!  Shape of the moves emitted by each section of generate_pawn_moves. -/

theorem mem_singles_white {op em prom : Bitboard} {m : Move}
    (hm : m ∈ pawnSinglePushMoves op em prom .White) :
    ∃ t, 8 ≤ t ∧ t < 64 ∧ op.testBit (t - 8) = true ∧ em.testBit t = true ∧
      m.fromSq = t - 8 ∧ m.toSq = t ∧
      m.promote = (if prom.testBit t = true then some PieceType.Queen else none) := by
  rw [pawnSinglePushMoves, List.mem_map] at hm
  obtain ⟨x, hx, hxm⟩ := hm
  have hspp : single_pawn_push op em .White = wrap (op <<< 8) &&& em := rfl
  have hlt : single_pawn_push op em .White < U64 :=
    hspp ▸ lt_of_le_of_lt Nat.and_le_left (wrap_lt _)
  rw [mem_bbToList hlt] at hx
  obtain ⟨t, ht64, rfl, htb⟩ := hx
  rw [hspp] at htb
  simp only [Nat.testBit_and, testBit_wrap, Nat.testBit_shiftLeft, Bool.and_eq_true,
    decide_eq_true_eq] at htb
  obtain ⟨⟨_, ht8, hop⟩, hem⟩ := htb
  subst hxm
  refine ⟨t, ht8, ht64, hop, hem, ?_, ?_, ?_⟩
  · dsimp only []
    simp only [singlePushSource]
    rw [two_pow_shiftRight t 8 ht8, trailing_zeros_two_pow (by omega)]
  · dsimp only []
    exact trailing_zeros_two_pow ht64
  · dsimp only []
    by_cases hp : prom.testBit t = true
    · rw [if_pos ((two_pow_and_ne_zero_iff t prom).mpr hp), if_pos hp]
    · rw [if_neg (fun hc => hp ((two_pow_and_ne_zero_iff t prom).mp hc)), if_neg hp]

theorem mem_singles_black {op em prom : Bitboard} {m : Move} (hop : op < U64)
    (hm : m ∈ pawnSinglePushMoves op em prom .Black) :
    ∃ t, t + 8 < 64 ∧ op.testBit (t + 8) = true ∧ em.testBit t = true ∧
      m.fromSq = t + 8 ∧ m.toSq = t ∧
      m.promote = (if prom.testBit t = true then some PieceType.Queen else none) := by
  rw [pawnSinglePushMoves, List.mem_map] at hm
  obtain ⟨x, hx, hxm⟩ := hm
  have hspp : single_pawn_push op em .Black = (op >>> 8) &&& em := rfl
  have hsr : op >>> 8 ≤ op := by
    rw [Nat.shiftRight_eq_div_pow]
    exact Nat.div_le_self _ _
  have hlt : single_pawn_push op em .Black < U64 := by
    rw [hspp]
    exact lt_of_le_of_lt (le_trans Nat.and_le_left hsr) hop
  rw [mem_bbToList hlt] at hx
  obtain ⟨t, ht64, rfl, htb⟩ := hx
  rw [hspp] at htb
  simp only [Nat.testBit_and, Nat.testBit_shiftRight, Bool.and_eq_true] at htb
  obtain ⟨hop8, hem⟩ := htb
  have hop8a : op.testBit (t + 8) = true := by rwa [Nat.add_comm]
  have ht8 : t + 8 < 64 := by
    by_contra hc
    rw [testBit_ge_64 hop (by omega)] at hop8a
    exact Bool.false_ne_true hop8a
  subst hxm
  refine ⟨t, ht8, hop8a, hem, ?_, ?_, ?_⟩
  · dsimp only []
    simp only [singlePushSource]
    rw [two_pow_shiftLeft, wrap_two_pow ht8, trailing_zeros_two_pow ht8]
  · dsimp only []
    exact trailing_zeros_two_pow ht64
  · dsimp only []
    by_cases hp : prom.testBit t = true
    · rw [if_pos ((two_pow_and_ne_zero_iff t prom).mpr hp), if_pos hp]
    · rw [if_neg (fun hc => hp ((two_pow_and_ne_zero_iff t prom).mp hc)), if_neg hp]

theorem shiftRight_le_self (n k : Nat) : n >>> k ≤ n := by
  rw [Nat.shiftRight_eq_div_pow]
  exact Nat.div_le_self _ _

theorem mem_doubles_white {op em : Bitboard} {m : Move}
    (hm : m ∈ pawnDoublePushMoves op em .White) :
    ∃ t, 16 ≤ t ∧ t < 64 ∧ op.testBit (t - 16) = true ∧ RANK_2.testBit (t - 16) = true ∧
      em.testBit (t - 8) = true ∧ em.testBit t = true ∧
      m.fromSq = t - 16 ∧ m.toSq = t ∧ m.promote = none := by
  rw [pawnDoublePushMoves, List.mem_map] at hm
  obtain ⟨x, hx, hxm⟩ := hm
  have hdpp : double_pawn_push op em .White =
      wrap ((wrap ((op &&& RANK_2) <<< 8) &&& em) <<< 8) &&& em := rfl
  have hlt : double_pawn_push op em .White < U64 :=
    hdpp ▸ lt_of_le_of_lt Nat.and_le_left (wrap_lt _)
  rw [mem_bbToList hlt] at hx
  obtain ⟨t, ht64, rfl, htb⟩ := hx
  rw [hdpp] at htb
  simp only [Nat.testBit_and, testBit_wrap, Nat.testBit_shiftLeft, Bool.and_eq_true,
    decide_eq_true_eq] at htb
  obtain ⟨⟨_, ht8, ⟨⟨_, ht16, hopA, hopB⟩, hem8⟩⟩, hem⟩ := htb
  have hsub : t - 8 - 8 = t - 16 := by omega
  rw [hsub] at hopA hopB
  subst hxm
  refine ⟨t, by omega, ht64, hopA, hopB, hem8, hem, ?_, ?_, ?_⟩
  · dsimp only []
    simp only [doublePushSource]
    rw [two_pow_shiftRight t 16 (by omega), trailing_zeros_two_pow (by omega)]
  · dsimp only []
    exact trailing_zeros_two_pow ht64
  · rfl

set_option maxHeartbeats 1000000 in
theorem mem_doubles_black {op em : Bitboard} {m : Move} (hop : op < U64)
    (hm : m ∈ pawnDoublePushMoves op em .Black) :
    ∃ t, t + 16 < 64 ∧ op.testBit (t + 16) = true ∧ RANK_7.testBit (t + 16) = true ∧
      em.testBit (t + 8) = true ∧ em.testBit t = true ∧
      m.fromSq = t + 16 ∧ m.toSq = t ∧ m.promote = none := by
  rw [pawnDoublePushMoves, List.mem_map] at hm
  obtain ⟨x, hx, hxm⟩ := hm
  have hdpp : double_pawn_push op em .Black =
      ((((op &&& RANK_7) >>> 8) &&& em) >>> 8) &&& em := rfl
  have hlt : double_pawn_push op em .Black < U64 := by
    rw [hdpp]
    calc ((((op &&& RANK_7) >>> 8) &&& em) >>> 8) &&& em
        ≤ (((op &&& RANK_7) >>> 8) &&& em) >>> 8 := Nat.and_le_left
      _ ≤ ((op &&& RANK_7) >>> 8) &&& em := shiftRight_le_self _ _
      _ ≤ (op &&& RANK_7) >>> 8 := Nat.and_le_left
      _ ≤ op &&& RANK_7 := shiftRight_le_self _ _
      _ ≤ op := Nat.and_le_left
      _ < U64 := hop
  rw [mem_bbToList hlt] at hx
  obtain ⟨t, ht64, rfl, htb⟩ := hx
  rw [hdpp] at htb
  simp only [Nat.testBit_and, Nat.testBit_shiftRight, Bool.and_eq_true] at htb
  obtain ⟨⟨⟨hopA, hopB⟩, hem8⟩, hem⟩ := htb
  have hadd : 8 + (8 + t) = t + 16 := by omega
  rw [hadd] at hopA hopB
  have hem8a : em.testBit (t + 8) = true := by rwa [Nat.add_comm] at hem8
  have hrank := hopB
  rw [testBit_RANK_7, decide_eq_true_eq] at hrank
  have ht16 : t + 16 < 64 := by omega
  subst hxm
  refine ⟨t, ht16, hopA, hopB, hem8a, hem, ?_, ?_, ?_⟩
  · dsimp only []
    simp only [doublePushSource]
    rw [two_pow_shiftLeft, wrap_two_pow ht16, trailing_zeros_two_pow ht16]
  · dsimp only []
    exact trailing_zeros_two_pow ht64
  · rfl

theorem mem_eastcaps_white {op opp prom : Bitboard} {m : Move}
    (hm : m ∈ pawnEastCapMoves op opp prom .White) :
    ∃ t s, t < 64 ∧ opp.testBit t = true ∧ op.testBit s = true ∧ t = s + 9 ∧
      m.fromSq = s ∧ m.toSq = t ∧
      m.promote = (if prom.testBit t = true then some PieceType.Queen else none) := by
  rw [pawnEastCapMoves, List.mem_flatMap] at hm
  obtain ⟨x, hx, hm2⟩ := hm
  have hea : pawn_east_attacks op opp .White = (wrap (op <<< 9) &&& bnot FILE_A) &&& opp := rfl
  have hlt : pawn_east_attacks op opp .White < U64 :=
    hea ▸ lt_of_le_of_lt (le_trans Nat.and_le_left Nat.and_le_left) (wrap_lt _)
  rw [mem_bbToList hlt] at hx
  obtain ⟨t, ht64, rfl, htb⟩ := hx
  rw [hea] at htb
  simp only [Nat.testBit_and, testBit_wrap, Nat.testBit_shiftLeft, Bool.and_eq_true,
    decide_eq_true_eq] at htb
  obtain ⟨⟨⟨_, ht9, hop9⟩, _⟩, hopp⟩ := htb
  rw [List.mem_map] at hm2
  obtain ⟨y, hy, hym⟩ := hm2
  have hwa : pawn_west_attacks (2 ^ t) op Side.White.flip =
      ((2 ^ t >>> 9) &&& bnot FILE_H) &&& op := rfl
  have hpt : (2 : Nat) ^ t < U64 := by
    have hU : U64 = 2 ^ 64 := rfl
    rw [hU]
    exact Nat.pow_lt_pow_right (by norm_num) ht64
  have hlt2 : pawn_west_attacks (2 ^ t) op Side.White.flip < U64 := by
    rw [hwa]
    exact lt_of_le_of_lt
      (le_trans Nat.and_le_left (le_trans Nat.and_le_left (shiftRight_le_self _ _))) hpt
  rw [mem_bbToList hlt2] at hy
  obtain ⟨s, hs64, rfl, hsb⟩ := hy
  rw [hwa] at hsb
  simp only [Nat.testBit_and, Nat.testBit_shiftRight, Nat.testBit_two_pow, Bool.and_eq_true,
    decide_eq_true_eq] at hsb
  obtain ⟨⟨hts, _⟩, hops⟩ := hsb
  subst hym
  refine ⟨t, s, ht64, hopp, hops, by omega, ?_, ?_, ?_⟩
  · dsimp only []
    exact trailing_zeros_two_pow (by omega)
  · dsimp only []
    exact trailing_zeros_two_pow ht64
  · dsimp only []
    by_cases hp : prom.testBit t = true
    · rw [if_pos ((two_pow_and_ne_zero_iff t prom).mpr hp), if_pos hp]
    · rw [if_neg (fun hc => hp ((two_pow_and_ne_zero_iff t prom).mp hc)), if_neg hp]

theorem mem_westcaps_white {op opp prom : Bitboard} {m : Move}
    (hm : m ∈ pawnWestCapMoves op opp prom .White) :
    ∃ t s, t < 64 ∧ opp.testBit t = true ∧ op.testBit s = true ∧ t = s + 7 ∧
      m.fromSq = s ∧ m.toSq = t ∧
      m.promote = (if prom.testBit t = true then some PieceType.Queen else none) := by
  rw [pawnWestCapMoves, List.mem_flatMap] at hm
  obtain ⟨x, hx, hm2⟩ := hm
  have hwa : pawn_west_attacks op opp .White = (wrap (op <<< 7) &&& bnot FILE_H) &&& opp := rfl
  have hlt : pawn_west_attacks op opp .White < U64 :=
    hwa ▸ lt_of_le_of_lt (le_trans Nat.and_le_left Nat.and_le_left) (wrap_lt _)
  rw [mem_bbToList hlt] at hx
  obtain ⟨t, ht64, rfl, htb⟩ := hx
  rw [hwa] at htb
  simp only [Nat.testBit_and, testBit_wrap, Nat.testBit_shiftLeft, Bool.and_eq_true,
    decide_eq_true_eq] at htb
  obtain ⟨⟨⟨_, ht7, hop7⟩, _⟩, hopp⟩ := htb
  rw [List.mem_map] at hm2
  obtain ⟨y, hy, hym⟩ := hm2
  have hea : pawn_east_attacks (2 ^ t) op Side.White.flip =
      ((2 ^ t >>> 7) &&& bnot FILE_A) &&& op := rfl
  have hpt : (2 : Nat) ^ t < U64 := by
    have hU : U64 = 2 ^ 64 := rfl
    rw [hU]
    exact Nat.pow_lt_pow_right (by norm_num) ht64
  have hlt2 : pawn_east_attacks (2 ^ t) op Side.White.flip < U64 := by
    rw [hea]
    exact lt_of_le_of_lt
      (le_trans Nat.and_le_left (le_trans Nat.and_le_left (shiftRight_le_self _ _))) hpt
  rw [mem_bbToList hlt2] at hy
  obtain ⟨s, hs64, rfl, hsb⟩ := hy
  rw [hea] at hsb
  simp only [Nat.testBit_and, Nat.testBit_shiftRight, Nat.testBit_two_pow, Bool.and_eq_true,
    decide_eq_true_eq] at hsb
  obtain ⟨⟨hts, _⟩, hops⟩ := hsb
  subst hym
  refine ⟨t, s, ht64, hopp, hops, by omega, ?_, ?_, ?_⟩
  · dsimp only []
    exact trailing_zeros_two_pow (by omega)
  · dsimp only []
    exact trailing_zeros_two_pow ht64
  · dsimp only []
    by_cases hp : prom.testBit t = true
    · rw [if_pos ((two_pow_and_ne_zero_iff t prom).mpr hp), if_pos hp]
    · rw [if_neg (fun hc => hp ((two_pow_and_ne_zero_iff t prom).mp hc)), if_neg hp]

theorem mem_eastcaps_black {op opp prom : Bitboard} {m : Move} (hop : op < U64)
    (hm : m ∈ pawnEastCapMoves op opp prom .Black) :
    ∃ t s, t < 64 ∧ s < 64 ∧ opp.testBit t = true ∧ op.testBit s = true ∧ s = t + 7 ∧
      m.fromSq = s ∧ m.toSq = t ∧
      m.promote = (if prom.testBit t = true then some PieceType.Queen else none) := by
  rw [pawnEastCapMoves, List.mem_flatMap] at hm
  obtain ⟨x, hx, hm2⟩ := hm
  have hea : pawn_east_attacks op opp .Black = ((op >>> 7) &&& bnot FILE_A) &&& opp := rfl
  have hlt : pawn_east_attacks op opp .Black < U64 := by
    rw [hea]
    exact lt_of_le_of_lt
      (le_trans Nat.and_le_left (le_trans Nat.and_le_left (shiftRight_le_self _ _))) hop
  rw [mem_bbToList hlt] at hx
  obtain ⟨t, ht64, rfl, htb⟩ := hx
  rw [hea] at htb
  simp only [Nat.testBit_and, Nat.testBit_shiftRight, Bool.and_eq_true] at htb
  obtain ⟨⟨hop7, _⟩, hopp⟩ := htb
  rw [List.mem_map] at hm2
  obtain ⟨y, hy, hym⟩ := hm2
  have hwa : pawn_west_attacks (2 ^ t) op Side.Black.flip =
      ((wrap (2 ^ t <<< 7)) &&& bnot FILE_H) &&& op := rfl
  have hlt2 : pawn_west_attacks (2 ^ t) op Side.Black.flip < U64 := by
    rw [hwa]
    exact lt_of_le_of_lt (le_trans Nat.and_le_left Nat.and_le_left) (wrap_lt _)
  rw [mem_bbToList hlt2] at hy
  obtain ⟨s, hs64, rfl, hsb⟩ := hy
  rw [hwa] at hsb
  simp only [Nat.testBit_and, testBit_wrap, Nat.testBit_shiftLeft, Nat.testBit_two_pow,
    Bool.and_eq_true, decide_eq_true_eq] at hsb
  obtain ⟨⟨⟨_, hs7, hts⟩, _⟩, hops⟩ := hsb
  subst hym
  refine ⟨t, s, ht64, hs64, hopp, hops, by omega, ?_, ?_, ?_⟩
  · dsimp only []
    exact trailing_zeros_two_pow hs64
  · dsimp only []
    exact trailing_zeros_two_pow ht64
  · dsimp only []
    by_cases hp : prom.testBit t = true
    · rw [if_pos ((two_pow_and_ne_zero_iff t prom).mpr hp), if_pos hp]
    · rw [if_neg (fun hc => hp ((two_pow_and_ne_zero_iff t prom).mp hc)), if_neg hp]

theorem mem_westcaps_black {op opp prom : Bitboard} {m : Move} (hop : op < U64)
    (hm : m ∈ pawnWestCapMoves op opp prom .Black) :
    ∃ t s, t < 64 ∧ s < 64 ∧ opp.testBit t = true ∧ op.testBit s = true ∧ s = t + 9 ∧
      m.fromSq = s ∧ m.toSq = t ∧
      m.promote = (if prom.testBit t = true then some PieceType.Queen else none) := by
  rw [pawnWestCapMoves, List.mem_flatMap] at hm
  obtain ⟨x, hx, hm2⟩ := hm
  have hwa : pawn_west_attacks op opp .Black = ((op >>> 9) &&& bnot FILE_H) &&& opp := rfl
  have hlt : pawn_west_attacks op opp .Black < U64 := by
    rw [hwa]
    exact lt_of_le_of_lt
      (le_trans Nat.and_le_left (le_trans Nat.and_le_left (shiftRight_le_self _ _))) hop
  rw [mem_bbToList hlt] at hx
  obtain ⟨t, ht64, rfl, htb⟩ := hx
  rw [hwa] at htb
  simp only [Nat.testBit_and, Nat.testBit_shiftRight, Bool.and_eq_true] at htb
  obtain ⟨⟨hop9, _⟩, hopp⟩ := htb
  rw [List.mem_map] at hm2
  obtain ⟨y, hy, hym⟩ := hm2
  have hea : pawn_east_attacks (2 ^ t) op Side.Black.flip =
      ((wrap (2 ^ t <<< 9)) &&& bnot FILE_A) &&& op := rfl
  have hlt2 : pawn_east_attacks (2 ^ t) op Side.Black.flip < U64 := by
    rw [hea]
    exact lt_of_le_of_lt (le_trans Nat.and_le_left Nat.and_le_left) (wrap_lt _)
  rw [mem_bbToList hlt2] at hy
  obtain ⟨s, hs64, rfl, hsb⟩ := hy
  rw [hea] at hsb
  simp only [Nat.testBit_and, testBit_wrap, Nat.testBit_shiftLeft, Nat.testBit_two_pow,
    Bool.and_eq_true, decide_eq_true_eq] at hsb
  obtain ⟨⟨⟨_, hs9, hts⟩, _⟩, hops⟩ := hsb
  subst hym
  refine ⟨t, s, ht64, hs64, hopp, hops, by omega, ?_, ?_, ?_⟩
  · dsimp only []
    exact trailing_zeros_two_pow hs64
  · dsimp only []
    exact trailing_zeros_two_pow ht64
  · dsimp only []
    by_cases hp : prom.testBit t = true
    · rw [if_pos ((two_pow_and_ne_zero_iff t prom).mpr hp), if_pos hp]
    · rw [if_neg (fun hc => hp ((two_pow_and_ne_zero_iff t prom).mp hc)), if_neg hp]

/-!  Well-formedness of a board: all occupancy bitboards are u64 values. -/

/-- A Board is well formed when every occupancy bitboard is a u64 value,
which the Rust type system guarantees. -/
def Board.WF (b : Board) : Prop :=
  (∀ x ∈ b.bitboard_by_side, x < U64) ∧ (∀ x ∈ b.bitboard_by_piece, x < U64)

instance (b : Board) : Decidable (Board.WF b) :=
  inferInstanceAs (Decidable
    ((∀ x ∈ b.bitboard_by_side, x < U64) ∧ (∀ x ∈ b.bitboard_by_piece, x < U64)))

theorem getD_lt_U64 : ∀ (l : List Bitboard), (∀ x ∈ l, x < U64) → ∀ i, l.getD i 0 < U64
  | [], _, i => by
      rw [List.getD_nil]
      exact U64_pos
  | a :: t, h, 0 => by
      rw [List.getD_cons_zero]
      exact h a (List.mem_cons_self a t)
  | a :: t, h, i + 1 => by
      rw [List.getD_cons_succ]
      exact getD_lt_U64 t (fun x hx => h x (List.mem_cons_of_mem a hx)) i

theorem sideBB_lt {b : Board} (h : Board.WF b) (i : Nat) : sideBB b i < U64 :=
  getD_lt_U64 _ h.1 i

theorem pieceBB_lt {b : Board} (h : Board.WF b) (i : Nat) : pieceBB b i < U64 :=
  getD_lt_U64 _ h.2 i

theorem ourPawns_lt {b : Board} {side : Side} (h : Board.WF b) : ourPawns b side < U64 :=
  lt_of_le_of_lt Nat.and_le_left (pieceBB_lt h _)

/-!  Statement-side helper notions used by the claims. -/

/-- Square one rank ahead of a pawn square, toward the opponent. -/
def aheadSquare (side : Side) (p : Nat) : Nat :=
  match side with
  | .White => p + 8
  | .Black => p - 8
  | .Count => p

/-- The proposition that a move is a double push originating from square p
for the given side (destination two ranks ahead of p). -/
def isDoublePushFrom (side : Side) (p : Nat) (m : Move) : Prop :=
  match side with
  | .White => m.fromSq = p ∧ m.toSq = p + 16
  | .Black => m.fromSq = p ∧ m.toSq + 16 = p
  | .Count => False

/-- The proposition that a move is a double push for the given side: its
destination is two ranks ahead of its source. -/
def isDoublePushMove (side : Side) (m : Move) : Prop :=
  match side with
  | .White => m.toSq = m.fromSq + 16
  | .Black => m.fromSq = m.toSq + 16
  | .Count => False

/-- Starting rank of the given side's pawns (rank 2 for White, rank 7 for
Black). -/
def startRank (side : Side) : Bitboard :=
  match side with
  | .White => RANK_2
  | .Black => RANK_7
  | .Count => 0

/-- Engine obtained by a sequence of set_square calls from the default. -/
def applyCalls (calls : List (Nat × Side × Option PieceType)) : Engine :=
  calls.foldl (fun e c => set_square e c.1 c.2.1 c.2.2) Engine.default

/-!  Claim theorems. -/

/-- C1 (counterexample): bb_shift does not remove every square that would
wrap around the board edge.  A bitboard with only a1 set, shifted NWW (two
files west, one rank north), must come out empty, since a1 is on file A; the
code instead produces the bit for g1 (value 64), because the mask removes
only FILE_H after a two-file westward shift.  Symmetrically for SWW from a3,
and for the eastward NEE from h1 and SEE from h3, which land on b3
(value 131072 = bit 17) instead of vanishing. -/
theorem c1_bb_shift_wrap_bug :
    bb_shift 1 Direction.NWW = 64 ∧
    bb_shift 65536 Direction.SWW = 64 ∧
    bb_shift 128 Direction.NEE = 131072 ∧
    bb_shift 8388608 Direction.SEE = 131072 := by decide

/-- C2 (counterexample): a lone White knight on a1 generates three moves,
not the two the claim states: besides a1-b3 and a1-c2 the generated list
contains a1-g1 (toSq = 6), a wrap across the board produced by the NWW
shift bug.  The d4 half of the claim does hold: a lone knight on d4
generates exactly the eight knight-leap destinations. -/
theorem c2_knight_moves_a1_and_d4 :
    generate_knight_moves
      (set_square Engine.default 0 .White (some .Knight)).board .White =
      [⟨0, 6, none⟩, ⟨0, 10, none⟩, ⟨0, 17, none⟩] ∧
    generate_knight_moves
      (set_square Engine.default 27 .White (some .Knight)).board .White =
      [⟨27, 10, none⟩, ⟨27, 12, none⟩, ⟨27, 17, none⟩, ⟨27, 21, none⟩,
       ⟨27, 33, none⟩, ⟨27, 37, none⟩, ⟨27, 42, none⟩, ⟨27, 44, none⟩] := by decide

/-- C3 (counterexample): placing a piece with set_square does not clear the
other piece-type bitboards, so overwriting a White pawn on square 0 with a
White knight leaves square 0 set in both bitboard_by_piece[Pawn] and
bitboard_by_piece[Knight], violating the exactly-one-piece-type invariant.
The same slip corrupts every make_move that captures a piece of a different
type. -/
theorem c3_piece_bitboard_overlap_bug :
    (pieceBB (set_square (set_square Engine.default 0 .White (some .Pawn))
        0 .White (some .Knight)).board PieceType.Pawn.val).testBit 0 = true ∧
    (pieceBB (set_square (set_square Engine.default 0 .White (some .Pawn))
        0 .White (some .Knight)).board PieceType.Knight.val).testBit 0 = true ∧
    (sideBB (set_square (set_square Engine.default 0 .White (some .Pawn))
        0 .White (some .Knight)).board Side.White.val).testBit 0 = true := by decide

/-- C4: get_ls1b and remove_ls1b are total (under u64 wrapping semantics the
Lean translations are total functions whose results stay below 2^64), and
both return 0 on the zero bitboard. -/
theorem c4_ls1b_zero_and_total :
    get_ls1b 0 = 0 ∧ remove_ls1b 0 = 0 ∧
    ∀ b : Bitboard, b < U64 → get_ls1b b < U64 ∧ remove_ls1b b < U64 :=
  ⟨by decide, by decide,
   fun _ hb => ⟨lt_of_le_of_lt Nat.and_le_left hb, lt_of_le_of_lt Nat.and_le_left hb⟩⟩

/-- C4 witness: the totality part evaluated at the doctest bitboard. -/
theorem c4_witness :
    get_ls1b 0x000000FF00FF0000 < U64 ∧ remove_ls1b 0x000000FF00FF0000 < U64 :=
  c4_ls1b_zero_and_total.2.2 0x000000FF00FF0000 (by decide)

/-- C5: from the standard initial position, White pawn generation returns
exactly the 8 single pushes a2-a3 .. h2-h3 followed by the 8 double pushes
a2-a4 .. h2-h4, and no other moves; every move carries promote = none. -/
theorem c5_initial_position_white_pawn_moves :
    generate_pawn_moves (set_initial_position Engine.default).board Side.White =
      [⟨8, 16, none⟩, ⟨9, 17, none⟩, ⟨10, 18, none⟩, ⟨11, 19, none⟩,
       ⟨12, 20, none⟩, ⟨13, 21, none⟩, ⟨14, 22, none⟩, ⟨15, 23, none⟩,
       ⟨8, 24, none⟩, ⟨9, 25, none⟩, ⟨10, 26, none⟩, ⟨11, 27, none⟩,
       ⟨12, 28, none⟩, ⟨13, 29, none⟩, ⟨14, 30, none⟩, ⟨15, 31, none⟩] := by decide

/-- C10: make_move on a move whose source square holds no piece (per
squares_by_type) returns the Engine unchanged. -/
theorem c10_make_move_empty_source (e : Engine) (m : Move)
    (_hlt : m.fromSq < 64) (h : e.squares_by_type.getD m.fromSq none = none) :
    make_move e m = e := by
  rw [make_move, h]

/-- C6: both halves of the double-push gating claim.  First, whenever a pawn
of the moving side has the square one rank ahead of it occupied by any piece
of either side, the generated move list contains no double push from that
pawn, even when the square two ranks ahead is empty.  Second, a double push
is emitted only under the full gate: every generated move whose destination
lies two ranks ahead of its source has a pawn of the mover on the source
square, an empty intermediate square, an empty destination square, and the
source on the mover's starting rank (rank 2 for White, rank 7 for Black). -/
theorem c6_double_push_gating (b : Board) (side : Side)
    (hwf : Board.WF b) (hs : side = .White ∨ side = .Black) :
    (∀ p, (ourPawns b side).testBit p = true →
      (emptyBB b side).testBit (aheadSquare side p) = false →
      ∀ m ∈ generate_pawn_moves b side, ¬ isDoublePushFrom side p m) ∧
    (∀ m ∈ generate_pawn_moves b side, isDoublePushMove side m →
      (ourPawns b side).testBit m.fromSq = true ∧
      (emptyBB b side).testBit (aheadSquare side m.fromSq) = true ∧
      (emptyBB b side).testBit m.toSq = true ∧
      (startRank side).testBit m.fromSq = true) := by
  have hop : ourPawns b side < U64 := ourPawns_lt hwf
  constructor
  · intro p hpawn hocc m hm
    rcases hs with hs | hs <;> subst hs
    · rw [generate_pawn_moves] at hm
      rcases List.mem_append.mp hm with hm1 | hm1
      rcases List.mem_append.mp hm1 with hm2 | hm2
      rcases List.mem_append.mp hm2 with hm3 | hm3
      · obtain ⟨t, ht8, ht64, _, _, hfrom, hto, _⟩ := mem_singles_white hm3
        rintro ⟨hf, ht⟩
        rw [hfrom] at hf
        rw [hto] at ht
        omega
      · obtain ⟨t, ht16, ht64, _, _, hem8, _, hfrom, hto, _⟩ := mem_doubles_white hm3
        rintro ⟨hf, ht⟩
        rw [hfrom] at hf
        rw [hto] at ht
        simp only [aheadSquare] at hocc
        rw [(by omega : p + 8 = t - 8)] at hocc
        rw [hem8] at hocc
        exact Bool.noConfusion hocc
      · obtain ⟨t, s, _, _, _, hts, hfrom, hto, _⟩ := mem_eastcaps_white hm2
        rintro ⟨hf, ht⟩
        rw [hfrom] at hf
        rw [hto] at ht
        omega
      · obtain ⟨t, s, _, _, _, hts, hfrom, hto, _⟩ := mem_westcaps_white hm1
        rintro ⟨hf, ht⟩
        rw [hfrom] at hf
        rw [hto] at ht
        omega
    · rw [generate_pawn_moves] at hm
      rcases List.mem_append.mp hm with hm1 | hm1
      rcases List.mem_append.mp hm1 with hm2 | hm2
      rcases List.mem_append.mp hm2 with hm3 | hm3
      · obtain ⟨t, ht8, _, _, hfrom, hto, _⟩ := mem_singles_black hop hm3
        rintro ⟨hf, ht⟩
        rw [hfrom] at hf
        rw [hto] at ht
        omega
      · obtain ⟨t, ht16, _, _, hem8, _, hfrom, hto, _⟩ := mem_doubles_black hop hm3
        rintro ⟨hf, ht⟩
        rw [hfrom] at hf
        rw [hto] at ht
        simp only [aheadSquare] at hocc
        rw [(by omega : p - 8 = t + 8)] at hocc
        rw [hem8] at hocc
        exact Bool.noConfusion hocc
      · obtain ⟨t, s, _, _, _, _, hst, hfrom, hto, _⟩ := mem_eastcaps_black hop hm2
        rintro ⟨hf, ht⟩
        rw [hfrom] at hf
        rw [hto] at ht
        omega
      · obtain ⟨t, s, _, _, _, _, hst, hfrom, hto, _⟩ := mem_westcaps_black hop hm1
        rintro ⟨hf, ht⟩
        rw [hfrom] at hf
        rw [hto] at ht
        omega
  · intro m hm hdp
    rcases hs with hs | hs <;> subst hs
    · simp only [isDoublePushMove] at hdp
      rw [generate_pawn_moves] at hm
      rcases List.mem_append.mp hm with hm1 | hm1
      rcases List.mem_append.mp hm1 with hm2 | hm2
      rcases List.mem_append.mp hm2 with hm3 | hm3
      · obtain ⟨t, ht8, ht64, _, _, hfrom, hto, _⟩ := mem_singles_white hm3
        rw [hfrom, hto] at hdp
        omega
      · obtain ⟨t, ht16, ht64, hopA, hopB, hem8, hemt, hfrom, hto, _⟩ :=
          mem_doubles_white hm3
        refine ⟨?_, ?_, ?_, ?_⟩
        · rw [hfrom]
          exact hopA
        · simp only [aheadSquare]
          rw [hfrom, (by omega : t - 16 + 8 = t - 8)]
          exact hem8
        · rw [hto]
          exact hemt
        · simp only [startRank]
          rw [hfrom]
          exact hopB
      · obtain ⟨t, s, _, _, _, hts, hfrom, hto, _⟩ := mem_eastcaps_white hm2
        rw [hfrom, hto] at hdp
        omega
      · obtain ⟨t, s, _, _, _, hts, hfrom, hto, _⟩ := mem_westcaps_white hm1
        rw [hfrom, hto] at hdp
        omega
    · simp only [isDoublePushMove] at hdp
      rw [generate_pawn_moves] at hm
      rcases List.mem_append.mp hm with hm1 | hm1
      rcases List.mem_append.mp hm1 with hm2 | hm2
      rcases List.mem_append.mp hm2 with hm3 | hm3
      · obtain ⟨t, ht8, _, _, hfrom, hto, _⟩ := mem_singles_black hop hm3
        rw [hfrom, hto] at hdp
        omega
      · obtain ⟨t, ht16, hopA, hopB, hem8, hemt, hfrom, hto, _⟩ :=
          mem_doubles_black hop hm3
        refine ⟨?_, ?_, ?_, ?_⟩
        · rw [hfrom]
          exact hopA
        · simp only [aheadSquare]
          rw [hfrom, (by omega : t + 16 - 8 = t + 8)]
          exact hem8
        · rw [hto]
          exact hemt
        · simp only [startRank]
          rw [hfrom]
          exact hopB
      · obtain ⟨t, s, _, _, _, _, hst, hfrom, hto, _⟩ := mem_eastcaps_black hop hm2
        rw [hfrom, hto] at hdp
        omega
      · obtain ⟨t, s, _, _, _, _, hst, hfrom, hto, _⟩ := mem_westcaps_black hop hm1
        rw [hfrom, hto] at hdp
        omega

/-- C6 witness: on a board with White pawns on a2 and b2 and a Black pawn on
a3 (a2's push-through square), the gating theorem at that concrete board
shows the generated move b2-b4 is not a double push from a2, and, being a
double push from b2, has b2 occupied by a mover's pawn, b3 and b4 empty, and
b2 on rank 2. -/
theorem c6_witness :
    (¬ isDoublePushFrom Side.White 8 (Move.mk 9 25 none)) ∧
    ((ourPawns (set_square (set_square (set_square Engine.default
        8 .White (some .Pawn)) 9 .White (some .Pawn)) 16 .Black (some .Pawn)).board
        .White).testBit (Move.mk 9 25 none).fromSq = true ∧
      (emptyBB (set_square (set_square (set_square Engine.default
        8 .White (some .Pawn)) 9 .White (some .Pawn)) 16 .Black (some .Pawn)).board
        .White).testBit (aheadSquare .White (Move.mk 9 25 none).fromSq) = true ∧
      (emptyBB (set_square (set_square (set_square Engine.default
        8 .White (some .Pawn)) 9 .White (some .Pawn)) 16 .Black (some .Pawn)).board
        .White).testBit (Move.mk 9 25 none).toSq = true ∧
      (startRank .White).testBit (Move.mk 9 25 none).fromSq = true) :=
  ⟨(c6_double_push_gating
      (set_square (set_square (set_square Engine.default 8 .White (some .Pawn))
        9 .White (some .Pawn)) 16 .Black (some .Pawn)).board
      .White (by decide) (Or.inl rfl)).1
      8 (by decide) (by decide) (Move.mk 9 25 none) (by decide),
   (c6_double_push_gating
      (set_square (set_square (set_square Engine.default 8 .White (some .Pawn))
        9 .White (some .Pawn)) 16 .Black (some .Pawn)).board
      .White (by decide) (Or.inl rfl)).2
      (Move.mk 9 25 none) (by decide) rfl⟩

theorem promote_if_cases {prom : Bitboard} {t : Nat} {m : Move}
    (hto : m.toSq = t)
    (hprom : m.promote = (if prom.testBit t = true then some PieceType.Queen else none)) :
    (prom.testBit m.toSq = true → m.promote = some PieceType.Queen) ∧
    (prom.testBit m.toSq = false → m.promote = none) ∧
    (∀ pt, m.promote = some pt → pt = PieceType.Queen) := by
  subst hto
  by_cases hp : prom.testBit m.toSq = true
  · rw [if_pos hp] at hprom
    exact ⟨fun _ => hprom,
      fun hfalse => by rw [hp] at hfalse; exact Bool.noConfusion hfalse,
      fun pt hpt => by rw [hprom] at hpt; exact (Option.some.inj hpt).symm⟩
  · rw [if_neg hp] at hprom
    exact ⟨fun htrue => absurd htrue hp, fun _ => hprom,
      fun pt hpt => by rw [hprom] at hpt; exact Option.noConfusion hpt⟩

theorem promote_none_cases {rank : Bitboard} {m : Move}
    (hbit : rank.testBit m.toSq = false) (hprom : m.promote = none) :
    (rank.testBit m.toSq = true → m.promote = some PieceType.Queen) ∧
    (rank.testBit m.toSq = false → m.promote = none) ∧
    (∀ pt, m.promote = some pt → pt = PieceType.Queen) :=
  ⟨fun htrue => by rw [hbit] at htrue; exact Bool.noConfusion htrue, fun _ => hprom,
   fun pt hpt => by rw [hprom] at hpt; exact Option.noConfusion hpt⟩

/-- C7: every move generated by generate_pawn_moves whose destination lies
on the mover's back rank (RANK_8 for White, RANK_1 for Black, the
promotion_rank of the source) carries promote = some Queen, every generated
move whose destination is not on that rank carries promote = none, and no
generated move ever carries a promotion piece other than Queen. -/
theorem c7_promotion_flagging (b : Board) (side : Side) (m : Move)
    (hwf : Board.WF b) (hs : side = .White ∨ side = .Black)
    (hm : m ∈ generate_pawn_moves b side) :
    ((promotionRank side).testBit m.toSq = true → m.promote = some PieceType.Queen) ∧
    ((promotionRank side).testBit m.toSq = false → m.promote = none) ∧
    (∀ pt, m.promote = some pt → pt = PieceType.Queen) := by
  rcases hs with hs | hs <;> subst hs
  · rw [generate_pawn_moves] at hm
    rcases List.mem_append.mp hm with hm1 | hm1
    rcases List.mem_append.mp hm1 with hm2 | hm2
    rcases List.mem_append.mp hm2 with hm3 | hm3
    · obtain ⟨t, _, _, _, _, _, hto, hprom⟩ := mem_singles_white hm3
      exact promote_if_cases hto hprom
    · obtain ⟨t, ht16, ht64, _, hopB, _, _, _, hto, hprom⟩ := mem_doubles_white hm3
      rw [testBit_RANK_2, decide_eq_true_eq] at hopB
      refine promote_none_cases ?_ hprom
      rw [hto]
      show RANK_8.testBit t = false
      rw [testBit_RANK_8]
      exact decide_eq_false_iff_not.mpr (by omega)
    · obtain ⟨t, s, _, _, _, _, _, hto, hprom⟩ := mem_eastcaps_white hm2
      exact promote_if_cases hto hprom
    · obtain ⟨t, s, _, _, _, _, _, hto, hprom⟩ := mem_westcaps_white hm1
      exact promote_if_cases hto hprom
  · have hop : ourPawns b .Black < U64 := ourPawns_lt hwf
    rw [generate_pawn_moves] at hm
    rcases List.mem_append.mp hm with hm1 | hm1
    rcases List.mem_append.mp hm1 with hm2 | hm2
    rcases List.mem_append.mp hm2 with hm3 | hm3
    · obtain ⟨t, _, _, _, _, hto, hprom⟩ := mem_singles_black hop hm3
      exact promote_if_cases hto hprom
    · obtain ⟨t, ht16, _, hopB, _, _, _, hto, hprom⟩ := mem_doubles_black hop hm3
      rw [testBit_RANK_7, decide_eq_true_eq] at hopB
      refine promote_none_cases ?_ hprom
      rw [hto]
      show RANK_1.testBit t = false
      rw [testBit_RANK_1]
      exact decide_eq_false_iff_not.mpr (by omega)
    · obtain ⟨t, s, _, _, _, _, _, _, hto, hprom⟩ := mem_eastcaps_black hop hm2
      exact promote_if_cases hto hprom
    · obtain ⟨t, s, _, _, _, _, _, _, hto, hprom⟩ := mem_westcaps_black hop hm1
      exact promote_if_cases hto hprom

/-- C7 witness: evaluated for the single push a2-a3 in the initial
position. -/
theorem c7_witness :
    ((promotionRank Side.White).testBit (Move.mk 8 16 none).toSq = true →
      (Move.mk 8 16 none).promote = some PieceType.Queen) ∧
    ((promotionRank Side.White).testBit (Move.mk 8 16 none).toSq = false →
      (Move.mk 8 16 none).promote = none) ∧
    (∀ pt, (Move.mk 8 16 none).promote = some pt → pt = PieceType.Queen) :=
  c7_promotion_flagging (set_initial_position Engine.default).board .White
    (Move.mk 8 16 none) (by decide) (Or.inl rfl) (by decide)

/-- C8: on a board with a White pawn on d5 (square 35) and a Black pawn on
e6 (square 44), generate_pawn_moves for White contains the capture d5-e6;
and in general every move emitted by the two capture sections has its
destination occupied by an opposing piece, its source occupied by one of the
mover's own pawns, and source and destination one diagonal step apart in
the mover's forward direction. -/
theorem c8_capture_reconstruction :
    (Move.mk 35 44 none ∈ generate_pawn_moves
      (set_square (set_square Engine.default 35 .White (some .Pawn))
        44 .Black (some .Pawn)).board .White) ∧
    ∀ (b : Board) (side : Side) (m : Move), Board.WF b →
      (side = .White ∨ side = .Black) →
      m ∈ pawnEastCapMoves (ourPawns b side) (oppBB b side) (promotionRank side) side ++
          pawnWestCapMoves (ourPawns b side) (oppBB b side) (promotionRank side) side →
      (oppBB b side).testBit m.toSq = true ∧ (ourPawns b side).testBit m.fromSq = true ∧
      (side = .White → m.toSq = m.fromSq + 9 ∨ m.toSq = m.fromSq + 7) ∧
      (side = .Black → m.fromSq = m.toSq + 9 ∨ m.fromSq = m.toSq + 7) := by
  constructor
  · decide
  · intro b side m hwf hs hm
    rcases hs with hs | hs <;> subst hs
    · rcases List.mem_append.mp hm with hm1 | hm1
      · obtain ⟨t, s, _, hopp, hops, hts, hfrom, hto, _⟩ := mem_eastcaps_white hm1
        rw [hfrom, hto]
        exact ⟨hopp, hops, fun _ => Or.inl (by omega), fun h => Side.noConfusion h⟩
      · obtain ⟨t, s, _, hopp, hops, hts, hfrom, hto, _⟩ := mem_westcaps_white hm1
        rw [hfrom, hto]
        exact ⟨hopp, hops, fun _ => Or.inr (by omega), fun h => Side.noConfusion h⟩
    · have hop : ourPawns b .Black < U64 := ourPawns_lt hwf
      rcases List.mem_append.mp hm with hm1 | hm1
      · obtain ⟨t, s, _, _, hopp, hops, hst, hfrom, hto, _⟩ := mem_eastcaps_black hop hm1
        rw [hfrom, hto]
        exact ⟨hopp, hops, fun h => Side.noConfusion h, fun _ => Or.inr (by omega)⟩
      · obtain ⟨t, s, _, _, hopp, hops, hst, hfrom, hto, _⟩ := mem_westcaps_black hop hm1
        rw [hfrom, hto]
        exact ⟨hopp, hops, fun h => Side.noConfusion h, fun _ => Or.inl (by omega)⟩

/-- C8 witness: the universal part evaluated at the d5/e6 capture board and
the capture move d5-e6. -/
theorem c8_witness :
    (oppBB (set_square (set_square Engine.default 35 .White (some .Pawn))
        44 .Black (some .Pawn)).board .White).testBit (Move.mk 35 44 none).toSq = true ∧
    (ourPawns (set_square (set_square Engine.default 35 .White (some .Pawn))
        44 .Black (some .Pawn)).board .White).testBit (Move.mk 35 44 none).fromSq = true ∧
    (Side.White = Side.White →
      (Move.mk 35 44 none).toSq = (Move.mk 35 44 none).fromSq + 9 ∨
      (Move.mk 35 44 none).toSq = (Move.mk 35 44 none).fromSq + 7) ∧
    (Side.White = Side.Black →
      (Move.mk 35 44 none).fromSq = (Move.mk 35 44 none).toSq + 9 ∨
      (Move.mk 35 44 none).fromSq = (Move.mk 35 44 none).toSq + 7) :=
  c8_capture_reconstruction.2
    (set_square (set_square Engine.default 35 .White (some .Pawn))
      44 .Black (some .Pawn)).board .White (Move.mk 35 44 none)
    (by decide) (Or.inl rfl) (by decide)

theorem land_eq_zero_iff {x y : Nat} :
    x &&& y = 0 ↔ ∀ i, x.testBit i = false ∨ y.testBit i = false := by
  constructor
  · intro h i
    have hbit := congrArg (fun n => n.testBit i) h
    simp only [Nat.testBit_and, Nat.zero_testBit] at hbit
    cases hx : x.testBit i
    · exact Or.inl rfl
    · cases hy : y.testBit i
      · exact Or.inr rfl
      · rw [hx, hy] at hbit
        exact Bool.noConfusion hbit
  · intro h
    apply Nat.eq_of_testBit_eq
    intro i
    rw [Nat.testBit_and, Nat.zero_testBit]
    rcases h i with h1 | h1 <;> rw [h1] <;> simp

theorem or_disjoint_clear {w bl bit : Nat} (h : w &&& bl = 0) (hbit : bit < U64) :
    (w ||| bit) &&& (bl &&& bnot bit) = 0 := by
  rw [land_eq_zero_iff]
  intro i
  rcases Nat.lt_or_ge i 64 with hi | hi
  · cases hb : bit.testBit i
    · rcases land_eq_zero_iff.mp h i with h1 | h1
      · left
        rw [Nat.testBit_or, h1, hb]
        rfl
      · right
        rw [Nat.testBit_and, h1]
        rfl
    · right
      rw [Nat.testBit_and, testBit_bnot hbit, hb]
      simp
  · right
    have hd : (decide (i < 64)) = false := decide_eq_false_iff_not.mpr (by omega)
    rw [Nat.testBit_and, testBit_bnot hbit, hd]
    simp

theorem and_clear_or_disjoint {w bl bit : Nat} (h : w &&& bl = 0) (hbit : bit < U64) :
    (w &&& bnot bit) &&& (bl ||| bit) = 0 := by
  rw [Nat.and_comm]
  exact or_disjoint_clear (by rw [Nat.and_comm] at h; exact h) hbit

theorem and_clear_left_disjoint {w bl bit : Nat} (h : w &&& bl = 0) :
    (w &&& bnot bit) &&& bl = 0 := by
  rw [land_eq_zero_iff] at h ⊢
  intro i
  rcases h i with h1 | h1
  · left
    rw [Nat.testBit_and, h1]
    rfl
  · exact Or.inr h1

theorem and_clear_right_disjoint {w bl bit : Nat} (h : w &&& bl = 0) :
    w &&& (bl &&& bnot bit) = 0 := by
  rw [land_eq_zero_iff] at h ⊢
  intro i
  rcases h i with h1 | h1
  · exact Or.inl h1
  · right
    rw [Nat.testBit_and, h1]
    rfl

theorem set_square_preserves_disjoint (e : Engine) (i : Nat) (s : Side)
    (pt : Option PieceType) (w bl : Bitboard)
    (hsides : e.board.bitboard_by_side = [w, bl]) (hw : w &&& bl = 0)
    (hs : s = .White ∨ s = .Black) :
    ∃ w2 bl2, (set_square e i s pt).board.bitboard_by_side = [w2, bl2] ∧
      w2 &&& bl2 = 0 := by
  have hbit : wrap (1 <<< i) < U64 := wrap_lt _
  rcases hs with hs | hs <;> subst hs
  · cases pt with
    | some pt =>
        refine ⟨w ||| wrap (1 <<< i), bl &&& bnot (wrap (1 <<< i)), ?_,
          or_disjoint_clear hw hbit⟩
        simp [set_square, hsides, Side.val, Side.flip]
    | none =>
        refine ⟨w &&& bnot (wrap (1 <<< i)), bl, ?_, and_clear_left_disjoint hw⟩
        simp [set_square, hsides, Side.val, Side.flip]
  · cases pt with
    | some pt =>
        refine ⟨w &&& bnot (wrap (1 <<< i)), bl ||| wrap (1 <<< i), ?_,
          and_clear_or_disjoint hw hbit⟩
        simp [set_square, hsides, Side.val, Side.flip]
    | none =>
        refine ⟨w, bl &&& bnot (wrap (1 <<< i)), ?_, and_clear_right_disjoint hw⟩
        simp [set_square, hsides, Side.val, Side.flip]

theorem applyCalls_disjoint_aux :
    ∀ (calls : List (Nat × Side × Option PieceType)) (e : Engine) (w bl : Bitboard),
      e.board.bitboard_by_side = [w, bl] → w &&& bl = 0 →
      (∀ c ∈ calls, c.2.1 = Side.White ∨ c.2.1 = Side.Black) →
      ∃ w2 bl2,
        (calls.foldl (fun e c => set_square e c.1 c.2.1 c.2.2) e).board.bitboard_by_side
          = [w2, bl2] ∧ w2 &&& bl2 = 0
  | [], _, w, bl, hsides, hw, _ => ⟨w, bl, hsides, hw⟩
  | c :: rest, e, w, bl, hsides, hw, hall => by
      obtain ⟨w2, bl2, hs2, hw2⟩ := set_square_preserves_disjoint e c.1 c.2.1 c.2.2 w bl
        hsides hw (hall c (List.mem_cons_self _ _))
      rw [List.foldl_cons]
      exact applyCalls_disjoint_aux rest _ w2 bl2 hs2 hw2
        (fun x hx => hall x (List.mem_cons_of_mem _ hx))

/-- C9: after any sequence of set_square calls with playable sides, starting
from the default Engine, the White and Black occupancy bitboards are
disjoint. -/
theorem c9_occupancy_disjointness (calls : List (Nat × Side × Option PieceType))
    (hall : ∀ c ∈ calls, c.2.1 = Side.White ∨ c.2.1 = Side.Black) :
    sideBB (applyCalls calls).board Side.White.val &&&
      sideBB (applyCalls calls).board Side.Black.val = 0 := by
  obtain ⟨w2, bl2, hs2, hw2⟩ := applyCalls_disjoint_aux calls Engine.default 0 0 rfl rfl hall
  rw [applyCalls, sideBB, sideBB, hs2]
  simpa [Side.val] using hw2

/-- C9 witness: evaluated on a two-call sequence that places a White pawn
and then overwrites it with a Black pawn on the same square. -/
theorem c9_witness :
    sideBB (applyCalls [(0, .White, some .Pawn), (0, .Black, some .Pawn)]).board
        Side.White.val &&&
      sideBB (applyCalls [(0, .White, some .Pawn), (0, .Black, some .Pawn)]).board
        Side.Black.val = 0 :=
  c9_occupancy_disjointness [(0, .White, some .Pawn), (0, .Black, some .Pawn)] (by decide)

/-- C10 witness: applying make_move from an empty square of the default
engine leaves it unchanged. -/
theorem c10_witness : make_move Engine.default ⟨0, 1, none⟩ = Engine.default :=
  c10_make_move_empty_source Engine.default ⟨0, 1, none⟩ (by decide) (by decide)

end ChessEngine
